import Mathlib

/-!
Shallow embedding of the FPC floating-point compressor (src/src/lib.rs).

Doubles are represented by their raw 64-bit IEEE-754 bit patterns, as
natural numbers below 2 ^ 64 (`f64::to_bits` / `f64::from_bits` are
mutually inverse bijections between `f64` and `u64`, so working on bit
patterns is exact for bit-for-bit statements).  All 64-bit machine
arithmetic is modelled on `Nat` with explicit reduction modulo 2 ^ 64
where the Rust code can wrap.  Rust panics are modelled as error values:
the table-size panic of `compress_into` (lib.rs:42-44) and the
residual-exhaustion panic of `decompress_into` (lib.rs:129-131,158-160).

Predictor tables are `List Nat`.  Table reads use `List.getD _ _ 0` and
writes use `List.set`; for every table size `tableSize ≥ 1` both hashes
are masked with `tableSize - 1` before use, so all accesses are in
bounds and `getD`/`set` coincide with Rust's panicking indexing (this
in-bounds fact is proved below).  The only behavioural divergence is
`decompress_into` at `tableSize = 0` on a nonempty block, where Rust
aborts with an index-out-of-bounds panic; no theorem below appeals to
the model's behaviour at that point.
-/

namespace FPC

/-- Error kinds: the configuration panic raised by `compress_into` when the
table size is zero or not a power of two (lib.rs:42-44), and the
malformed-block panic raised by `decompress_into` when the residual is
exhausted while a value still needs bytes (lib.rs:129-131,158-160). -/
inductive FPCError where
  | configError
  | malformedBlock
  deriving DecidableEq, Repr

/-- Wrapping 64-bit addition (`u64::wrapping_add`). -/
def wadd (a b : Nat) : Nat := (a + b) % 2 ^ 64

/-- Wrapping 64-bit subtraction (`u64::wrapping_sub`); for `a b < 2 ^ 64`
this is `(a + 2 ^ 64 - b) % 2 ^ 64`. -/
def wsub (a b : Nat) : Nat := (a + 2 ^ 64 - b % 2 ^ 64) % 2 ^ 64

/-- The `BYTE_MASK` constant array (lib.rs:3-12). -/
def BYTE_MASK : List Nat :=
  [0xff00000000000000, 0x00ff000000000000, 0x0000ff0000000000, 0x000000ff00000000,
   0x00000000ff000000, 0x0000000000ff0000, 0x000000000000ff00, 0x00000000000000ff]

/-- The per-call predictor state: last value register, the two rolling
hashes and the two prediction tables (lib.rs:45-52, 102-106). -/
structure PredState where
  lastValue : Nat
  fcmHash : Nat
  fcm : List Nat
  dfcmHash : Nat
  dfcm : List Nat
  deriving DecidableEq, Repr

/-- Initial predictor state: zero hashes, zero last value, zeroed tables of
length `tableSize` (lib.rs:45-52, 102-106). -/
def initState (tableSize : Nat) : PredState :=
  { lastValue := 0, fcmHash := 0, fcm := List.replicate tableSize 0,
    dfcmHash := 0, dfcm := List.replicate tableSize 0 }

/-- The FCM prediction read `fcm[fcm_hash]` (lib.rs:57, 120). -/
def fcmPrediction (s : PredState) : Nat := s.fcm.getD s.fcmHash 0

/-- The raw DFCM table read `dfcm[dfcm_hash]` (lib.rs:61, 121). -/
def dfcmTableEntry (s : PredState) : Nat := s.dfcm.getD s.dfcmHash 0

/-- The DFCM prediction `dfcm[dfcm_hash].wrapping_add(last_value)`
(lib.rs:61; the decoder forms the same sum at lib.rs:135,164). -/
def dfcmPrediction (s : PredState) : Nat := wadd (dfcmTableEntry s) s.lastValue

/-- The encoder's `fcm_diff = fcm_prediction ^ true_value` (lib.rs:66). -/
def fcmDiff (s : PredState) (v : Nat) : Nat := fcmPrediction s ^^^ v

/-- The encoder's `dfcm_diff = dfcm_prediction ^ true_value` (lib.rs:67),
with `dfcm_prediction` the wrapping sum of lib.rs:61. -/
def dfcmDiff (s : PredState) (v : Nat) : Nat := dfcmPrediction s ^^^ v

/-- One predictor-state update for value bit pattern `v`: store into both
tables, rotate both hashes, set the last value (lib.rs:58-64; the decoder
performs the identical update at lib.rs:137-142,167-172). -/
def stepState (tableSize : Nat) (s : PredState) (v : Nat) : PredState :=
  let d := wsub v s.lastValue
  { lastValue := v,
    fcm := s.fcm.set s.fcmHash v,
    fcmHash := (((s.fcmHash <<< 6) % 2 ^ 64) ^^^ (v >>> 48)) &&& (tableSize - 1),
    dfcm := s.dfcm.set s.dfcmHash d,
    dfcmHash := (((s.dfcmHash <<< 2) % 2 ^ 64) ^^^ (d >>> 40)) &&& (tableSize - 1) }

/-- Count of leading zero bytes of `x`: the loop over `BYTE_MASK` with
early break (lib.rs:69-75), unrolled. -/
def countLZB (x : Nat) : Nat :=
  if x &&& BYTE_MASK.getD 0 0 ≠ 0 then 0
  else if x &&& BYTE_MASK.getD 1 0 ≠ 0 then 1
  else if x &&& BYTE_MASK.getD 2 0 ≠ 0 then 2
  else if x &&& BYTE_MASK.getD 3 0 ≠ 0 then 3
  else if x &&& BYTE_MASK.getD 4 0 ≠ 0 then 4
  else if x &&& BYTE_MASK.getD 5 0 ≠ 0 then 5
  else if x &&& BYTE_MASK.getD 6 0 ≠ 0 then 6
  else if x &&& BYTE_MASK.getD 7 0 ≠ 0 then 7
  else 8

/-- Big-endian byte decomposition `u64::to_be_bytes` (lib.rs:76). -/
def toBeBytes (x : Nat) : List Nat :=
  [(x >>> 56) &&& 255, (x >>> 48) &&& 255, (x >>> 40) &&& 255, (x >>> 32) &&& 255,
   (x >>> 24) &&& 255, (x >>> 16) &&& 255, (x >>> 8) &&& 255, x &&& 255]

/-- Encoding of a single value at predictor state `s`: the chosen header
nibble and the emitted residual bytes (lib.rs:66-87). -/
def encodeValue (s : PredState) (v : Nat) : Nat × List Nat :=
  let fcm_diff := fcmDiff s v
  let dfcm_diff := dfcmDiff s v
  let to_encode := min fcm_diff dfcm_diff
  let lzb := countLZB to_encode
  let bytes := toBeBytes to_encode
  let emitted := if lzb = 4 then bytes.drop 3 else bytes.drop lzb
  let code := if lzb ≥ 4 then lzb - 1 else lzb
  (code ||| (if fcm_diff < dfcm_diff then 8 else 0), emitted)

/-- The header write `encoding[i>>1] |= mask << shift` (lib.rs:88-89); the
shift is through a `u8`, hence the reduction modulo 256 (the mask is in
fact always below 16, so nothing is ever truncated). -/
def orNibble (encoding : List Nat) (i mask : Nat) : List Nat :=
  let shift := if i &&& 1 = 0 then 4 else 0
  encoding.set (i >>> 1) (encoding.getD (i >>> 1) 0 ||| ((mask <<< shift) % 256))

/-- The encoder main loop over the input values (lib.rs:54-90), with `i`
the running input index. -/
def compressLoop (tableSize : Nat) (s : PredState) (values : List Nat) (i : Nat)
    (encoding residual : List Nat) : List Nat × List Nat :=
  match values with
  | [] => (encoding, residual)
  | v :: rest =>
      let m := encodeValue s v
      compressLoop tableSize (stepState tableSize s v) rest (i + 1)
        (orNibble encoding i m.1) (residual ++ m.2)

/-- `compress_into` (lib.rs:34-91): early return on empty input, then the
table-size configuration check, then the encoder loop. -/
def compress_into (tableSize : Nat) (fpValues : List Nat)
    (encoding residual : List Nat) : Except FPCError (List Nat × List Nat) :=
  if fpValues.isEmpty then Except.ok (encoding, residual)
  else if tableSize = 0 ∨ tableSize &&& (tableSize - 1) ≠ 0 then
    Except.error FPCError.configError
  else Except.ok (compressLoop tableSize (initState tableSize) fpValues 0 encoding residual)

/-- The compressed block (lib.rs:14-19). -/
structure FPCCompressedBlock where
  num_bytes_encoded : Nat
  encoding : List Nat
  residual : List Nat
  deriving DecidableEq, Repr

/-- `compress` (lib.rs:21-26): zero-filled header of length
`(len + 1) / 2`, empty residual, then `compress_into`. -/
def compress (tableSize : Nat) (fpValues : List Nat) :
    Except FPCError FPCCompressedBlock :=
  match compress_into tableSize fpValues
      (List.replicate ((fpValues.length + 1) / 2) 0) [] with
  | Except.error e => Except.error e
  | Except.ok p =>
      Except.ok { num_bytes_encoded := fpValues.length, encoding := p.1, residual := p.2 }

/-- Decoder nibble interpretation `enc & 0b0111`, bumped by one when at
least 4 (lib.rs:123-126, 152-155). -/
def decodeNibbleLZB (enc : Nat) : Nat :=
  let n := enc &&& 7
  if n ≥ 4 then n + 1 else n

/-- The decoder's residual-byte loop (lib.rs:127-134, 156-163): read
`count` bytes starting at cursor `idx`, accumulating big-endian into
`acc`; `none` models the `not enough residual bytes` panic. -/
def readBE (residual : List Nat) : Nat → Nat → Nat → Option (Nat × Nat)
  | 0, idx, acc => some (acc, idx)
  | count + 1, idx, acc =>
      if idx < residual.length then
        readBE residual count (idx + 1) (((acc <<< 8) % 2 ^ 64) ||| residual.getD idx 0)
      else none

/-- The decoder's chosen prediction (lib.rs:135, 164): the FCM read when
the select bit was set, otherwise the raw DFCM read wrapping-added to the
last value. -/
def decoderChosen (s : PredState) (isFcmPredicted : Bool) : Nat :=
  if isFcmPredicted then fcmPrediction s
  else wadd (dfcmTableEntry s) s.lastValue

/-- Decoding of one header nibble `enc` at predictor state `s` with the
residual cursor at `ridx` (lib.rs:120-142 and its duplicate 149-172):
yields the decoded bit pattern, the updated state and the new cursor, or
`none` for the malformed-block panic. -/
def decodeOne (tableSize : Nat) (residual : List Nat) (s : PredState)
    (enc ridx : Nat) : Option (Nat × PredState × Nat) :=
  let isFcmPredicted := enc &&& 8 != 0
  match readBE residual (8 - decodeNibbleLZB enc) ridx 0 with
  | none => none
  | some (r, ridx2) =>
      let decoded := r ^^^ decoderChosen s isFcmPredicted
      some (decoded, stepState tableSize s decoded, ridx2)

/-- The decoder main loop over header bytes (lib.rs:110-175).  Each byte
holds two nibbles, high first; after the first nibble of the final header
byte the loop breaks when `num_bytes_encoded` is odd (lib.rs:145-147).
The accumulated output is returned together with the error, modelling
that `res` retains already-pushed values when the Rust code panics. -/
def decompressLoop (tableSize : Nat) (blk : FPCCompressedBlock) :
    List Nat → PredState → Nat → List Nat → List Nat × Option FPCError
  | [], _, _, out => (out, none)
  | b :: rest, s, ridx, out =>
      match decodeOne tableSize blk.residual s (b >>> 4) ridx with
      | none => (out, some FPCError.malformedBlock)
      | some (v1, s1, r1) =>
          if rest.isEmpty && (blk.num_bytes_encoded &&& 1 != 0) then
            (out ++ [v1], none)
          else
            match decodeOne tableSize blk.residual s1 (b &&& 0xf) r1 with
            | none => (out ++ [v1], some FPCError.malformedBlock)
            | some (v2, s2, r2) =>
                decompressLoop tableSize blk rest s2 r2 (out ++ [v1] ++ [v2])

/-- `decompress_into` (lib.rs:93-176): early return on an empty block,
then the per-header-byte loop.  There is no table-size check. -/
def decompress_into (tableSize : Nat) (blk : FPCCompressedBlock)
    (res : List Nat) : List Nat × Option FPCError :=
  if blk.num_bytes_encoded = 0 then (res, none)
  else decompressLoop tableSize blk blk.encoding (initState tableSize) 0 res

/-- `decompress` (lib.rs:28-32): decode into a fresh vector. -/
def decompress (tableSize : Nat) (blk : FPCCompressedBlock) :
    List Nat × Option FPCError :=
  decompress_into tableSize blk []

/-- The per-value header nibbles of a block, as the decoder extracts them
(lib.rs:111-112): for value index `i`, byte `i / 2`, high nibble when `i`
is even. -/
def headerNibbles (blk : FPCCompressedBlock) : List Nat :=
  (List.range blk.num_bytes_encoded).map fun i =>
    (blk.encoding.getD (i >>> 1) 0 >>> (if i &&& 1 = 0 then 4 else 0)) &&& 0xf

/-- The formula claimed for the encoder's DFCM difference when the word
`dfcm_pred` is read as the full prediction of spec section 4.1
(`dfcm[dfcm_hash] + L`): the claim asserts
`dfcm_diff = (dfcm_pred + L) XOR v`. -/
def dfcmDiffClaimed (s : PredState) (v : Nat) : Nat :=
  wadd (dfcmPrediction s) s.lastValue ^^^ v

/-- All stored 64-bit quantities of a predictor state are reduced
modulo 2 ^ 64 (always true of the Rust `u64` state; an invariant of the
model). -/
def stateBound (s : PredState) : Prop :=
  s.lastValue < 2 ^ 64 ∧ (∀ y ∈ s.fcm, y < 2 ^ 64) ∧ ∀ y ∈ s.dfcm, y < 2 ^ 64

/-- Proof-side restatement of the encoder loop that materialises one
header byte per pair of values (high nibble first, a lone final value
giving `mask <<< 4`): used to characterise `compressLoop`. -/
def encodePairs (tableSize : Nat) (s : PredState) : List Nat → List Nat × List Nat
  | [] => ([], [])
  | [v] =>
      let m := encodeValue s v
      ([m.1 <<< 4], m.2)
  | v1 :: v2 :: rest =>
      let m1 := encodeValue s v1
      let s1 := stepState tableSize s v1
      let m2 := encodeValue s1 v2
      let s2 := stepState tableSize s1 v2
      let p := encodePairs tableSize s2 rest
      ((m1.1 <<< 4 ||| m2.1) :: p.1, m1.2 ++ m2.2 ++ p.2)

/-- The per-value header nibbles the encoder produces, in input order:
used to relate `headerNibbles` of a compressed block to the per-value
encoding. -/
def masksOf (tableSize : Nat) (s : PredState) : List Nat → List Nat
  | [] => []
  | v :: rest => (encodeValue s v).1 :: masksOf tableSize (stepState tableSize s v) rest

end FPC

namespace FPC

/-! ### Arithmetic and bit-manipulation helpers -/

lemma shiftl_eq_mul (a k : Nat) : a <<< k = a * 2 ^ k := Nat.shiftLeft_eq a k

lemma shiftr_eq_div (a k : Nat) : a >>> k = a / 2 ^ k := Nat.shiftRight_eq_div_pow a k

lemma and255 (x : Nat) : x &&& 255 = x % 256 := by
  have h := Nat.and_pow_two_sub_one_eq_mod x 8
  norm_num at h
  exact h

lemma and15 (x : Nat) : x &&& 15 = x % 16 := by
  have h := Nat.and_pow_two_sub_one_eq_mod x 4
  norm_num at h
  exact h

lemma and7 (x : Nat) : x &&& 7 = x % 8 := by
  have h := Nat.and_pow_two_sub_one_eq_mod x 3
  norm_num at h
  exact h

lemma and1 (x : Nat) : x &&& 1 = x % 2 := Nat.and_one_is_mod x

lemma or_shiftl_eq_add {b : Nat} (a k : Nat) (hb : b < 2 ^ k) :
    (a <<< k) ||| b = a * 2 ^ k + b := by
  rw [shiftl_eq_mul, Nat.mul_comm]
  exact (Nat.mul_add_lt_is_or hb a).symm

lemma wadd_lt (a b : Nat) : wadd a b < 2 ^ 64 :=
  Nat.mod_lt _ (by norm_num)

lemma wsub_lt (a b : Nat) : wsub a b < 2 ^ 64 :=
  Nat.mod_lt _ (by norm_num)

lemma and_shiftLeft_comm (x y s : Nat) : x &&& (y <<< s) = ((x >>> s) &&& y) <<< s := by
  apply Nat.eq_of_testBit_eq
  intro i
  simp only [Nat.testBit_and, Nat.testBit_shiftLeft, Nat.testBit_shiftRight]
  by_cases h : s ≤ i
  · simp [h, Nat.add_sub_cancel' h, Bool.and_comm, Bool.and_left_comm, Bool.and_assoc]
  · simp [h]

lemma lt_of_and_mask_zero {x s : Nat} (hx : x < 2 ^ (s + 8))
    (h : x &&& (255 <<< s) = 0) : x < 2 ^ s := by
  have hp : 0 < 2 ^ s := Nat.pow_pos (by norm_num)
  rw [and_shiftLeft_comm, shiftl_eq_mul] at h
  have h2 : (x >>> s) &&& 255 = 0 := by
    rcases Nat.mul_eq_zero.mp h with h3 | h3
    · exact h3
    · omega
  rw [and255, shiftr_eq_div] at h2
  have h4 : x / 2 ^ s < 256 := by
    apply Nat.div_lt_of_lt_mul
    have hpow : (2 : Nat) ^ (s + 8) = 2 ^ s * 256 := by rw [Nat.pow_add]
    omega
  have h5 : x / 2 ^ s = 0 := (Nat.mod_eq_of_lt h4).symm.trans h2
  calc x = 2 ^ s * (x / 2 ^ s) + x % 2 ^ s := (Nat.div_add_mod x (2 ^ s)).symm
  _ = x % 2 ^ s := by rw [h5, Nat.mul_zero, Nat.zero_add]
  _ < 2 ^ s := Nat.mod_lt x hp

lemma countLZB_le (x : Nat) : countLZB x ≤ 8 := by
  unfold countLZB
  split_ifs <;> norm_num

lemma countLZB_bound {x : Nat} (hx : x < 2 ^ 64) : x < 2 ^ (8 * (8 - countLZB x)) := by
  have e0 : BYTE_MASK.getD 0 0 = 255 <<< 56 := by decide
  have e1 : BYTE_MASK.getD 1 0 = 255 <<< 48 := by decide
  have e2 : BYTE_MASK.getD 2 0 = 255 <<< 40 := by decide
  have e3 : BYTE_MASK.getD 3 0 = 255 <<< 32 := by decide
  have e4 : BYTE_MASK.getD 4 0 = 255 <<< 24 := by decide
  have e5 : BYTE_MASK.getD 5 0 = 255 <<< 16 := by decide
  have e6 : BYTE_MASK.getD 6 0 = 255 <<< 8 := by decide
  have e7 : BYTE_MASK.getD 7 0 = 255 <<< 0 := by decide
  unfold countLZB
  rw [e0, e1, e2, e3, e4, e5, e6, e7]
  split_ifs with h0 h1 h2 h3 h4 h5 h6 h7
  · exact hx
  · exact lt_of_and_mask_zero (s := 56) hx (not_not.mp h0)
  · have b1 := lt_of_and_mask_zero (s := 56) hx (not_not.mp h0)
    exact lt_of_and_mask_zero (s := 48) b1 (not_not.mp h1)
  · have b1 := lt_of_and_mask_zero (s := 56) hx (not_not.mp h0)
    have b2 := lt_of_and_mask_zero (s := 48) b1 (not_not.mp h1)
    exact lt_of_and_mask_zero (s := 40) b2 (not_not.mp h2)
  · have b1 := lt_of_and_mask_zero (s := 56) hx (not_not.mp h0)
    have b2 := lt_of_and_mask_zero (s := 48) b1 (not_not.mp h1)
    have b3 := lt_of_and_mask_zero (s := 40) b2 (not_not.mp h2)
    exact lt_of_and_mask_zero (s := 32) b3 (not_not.mp h3)
  · have b1 := lt_of_and_mask_zero (s := 56) hx (not_not.mp h0)
    have b2 := lt_of_and_mask_zero (s := 48) b1 (not_not.mp h1)
    have b3 := lt_of_and_mask_zero (s := 40) b2 (not_not.mp h2)
    have b4 := lt_of_and_mask_zero (s := 32) b3 (not_not.mp h3)
    exact lt_of_and_mask_zero (s := 24) b4 (not_not.mp h4)
  · have b1 := lt_of_and_mask_zero (s := 56) hx (not_not.mp h0)
    have b2 := lt_of_and_mask_zero (s := 48) b1 (not_not.mp h1)
    have b3 := lt_of_and_mask_zero (s := 40) b2 (not_not.mp h2)
    have b4 := lt_of_and_mask_zero (s := 32) b3 (not_not.mp h3)
    have b5 := lt_of_and_mask_zero (s := 24) b4 (not_not.mp h4)
    exact lt_of_and_mask_zero (s := 16) b5 (not_not.mp h5)
  · have b1 := lt_of_and_mask_zero (s := 56) hx (not_not.mp h0)
    have b2 := lt_of_and_mask_zero (s := 48) b1 (not_not.mp h1)
    have b3 := lt_of_and_mask_zero (s := 40) b2 (not_not.mp h2)
    have b4 := lt_of_and_mask_zero (s := 32) b3 (not_not.mp h3)
    have b5 := lt_of_and_mask_zero (s := 24) b4 (not_not.mp h4)
    have b6 := lt_of_and_mask_zero (s := 16) b5 (not_not.mp h5)
    exact lt_of_and_mask_zero (s := 8) b6 (not_not.mp h6)
  · have b1 := lt_of_and_mask_zero (s := 56) hx (not_not.mp h0)
    have b2 := lt_of_and_mask_zero (s := 48) b1 (not_not.mp h1)
    have b3 := lt_of_and_mask_zero (s := 40) b2 (not_not.mp h2)
    have b4 := lt_of_and_mask_zero (s := 32) b3 (not_not.mp h3)
    have b5 := lt_of_and_mask_zero (s := 24) b4 (not_not.mp h4)
    have b6 := lt_of_and_mask_zero (s := 16) b5 (not_not.mp h5)
    have b7 := lt_of_and_mask_zero (s := 8) b6 (not_not.mp h6)
    exact lt_of_and_mask_zero (s := 0) b7 (not_not.mp h7)

lemma getD_lt_of_forall {l : List Nat} {i : Nat} (h : ∀ y ∈ l, y < 2 ^ 64) :
    l.getD i 0 < 2 ^ 64 := by
  rcases hge : l.get? i with _ | y
  · rw [List.getD_eq_get?, hge]
    norm_num
  · rw [List.getD_eq_get?, hge]
    exact h y (List.get?_mem hge)

lemma fcmPrediction_lt {s : PredState} (hs : stateBound s) : fcmPrediction s < 2 ^ 64 :=
  getD_lt_of_forall hs.2.1

lemma dfcmPrediction_lt (s : PredState) : dfcmPrediction s < 2 ^ 64 := wadd_lt _ _

lemma fcmDiff_lt {s : PredState} {v : Nat} (hs : stateBound s) (hv : v < 2 ^ 64) :
    fcmDiff s v < 2 ^ 64 :=
  Nat.xor_lt_two_pow (fcmPrediction_lt hs) hv

lemma dfcmDiff_lt {s : PredState} {v : Nat} (hv : v < 2 ^ 64) :
    dfcmDiff s v < 2 ^ 64 :=
  Nat.xor_lt_two_pow (dfcmPrediction_lt s) hv

lemma stateBound_init (tableSize : Nat) : stateBound (initState tableSize) := by
  refine ⟨by simp [initState], ?_, ?_⟩ <;>
  · intro y hy
    simp only [initState, List.mem_replicate] at hy
    rw [hy.2]
    norm_num

lemma stateBound_step {tableSize : Nat} {s : PredState} {v : Nat}
    (hs : stateBound s) (hv : v < 2 ^ 64) : stateBound (stepState tableSize s v) := by
  refine ⟨hv, ?_, ?_⟩
  · intro y hy
    rcases List.mem_or_eq_of_mem_set hy with h | rfl
    · exact hs.2.1 y h
    · exact hv
  · intro y hy
    rcases List.mem_or_eq_of_mem_set hy with h | rfl
    · exact hs.2.2 y h
    · exact wsub_lt _ _

lemma readBE_eq {R : List Nat} (bs : List Nat) :
    ∀ {count ridx acc : Nat} {extra : List Nat},
      R.drop ridx = bs ++ extra → count = bs.length →
      readBE R count ridx acc =
        some (bs.foldl (fun a b => ((a <<< 8) % 2 ^ 64) ||| b) acc, ridx + count) := by
  induction bs with
  | nil =>
      intro count ridx acc extra hdrop hcount
      subst hcount
      simp [readBE]
  | cons b t ih =>
      intro count ridx acc extra hdrop hcount
      subst hcount
      have hlt : ridx < R.length := by
        by_contra hge
        push_neg at hge
        rw [List.drop_eq_nil_of_le hge] at hdrop
        simp at hdrop
      have hget : R.getD ridx 0 = b := by
        have h0 : (R.drop ridx).get? 0 = some b := by rw [hdrop]; rfl
        rw [List.get?_drop, Nat.add_zero] at h0
        rw [List.getD_eq_get?, h0]
        rfl
      have hdrop2 : R.drop (ridx + 1) = t ++ extra := by
        rw [← List.tail_drop, hdrop]
        rfl
      simp only [readBE, List.length_cons]
      rw [if_pos hlt, hget, ih hdrop2 rfl]
      simp [Nat.add_comm, Nat.add_assoc, Nat.add_left_comm]

lemma readBE_none {R : List Nat} :
    ∀ (count ridx acc : Nat),
      readBE R count ridx acc = none ↔ 0 < count ∧ R.length < ridx + count := by
  intro count
  induction count with
  | zero =>
      intro ridx acc
      simp [readBE]
  | succ n ih =>
      intro ridx acc
      simp only [readBE]
      by_cases hlt : ridx < R.length
      · rw [if_pos hlt, ih]
        omega
      · rw [if_neg hlt]
        simp only [true_iff, eq_self_iff_true]
        omega

lemma toBeBytes_bytes_lt {x : Nat} : ∀ b ∈ toBeBytes x, b < 256 := by
  intro b hb
  have h255 : ∀ y : Nat, y &&& 255 < 256 := fun y => Nat.lt_succ_of_le Nat.and_le_right
  simp only [toBeBytes, List.mem_cons, List.not_mem_nil, or_false] at hb
  rcases hb with rfl | rfl | rfl | rfl | rfl | rfl | rfl | rfl <;> exact h255 _

lemma shiftFold_eq_arith :
    ∀ (bs : List Nat), (∀ b ∈ bs, b < 256) → bs.length ≤ 8 →
      ∀ acc, acc < 2 ^ (8 * (8 - bs.length)) →
      bs.foldl (fun a b => ((a <<< 8) % 2 ^ 64) ||| b) acc =
        bs.foldl (fun a b => a * 256 + b) acc := by
  intro bs
  induction bs with
  | nil => intro _ _ acc _; rfl
  | cons b t ih =>
      intro hb hlen acc hacc
      simp only [List.foldl_cons, List.length_cons] at *
      have hb0 : b < 256 := hb b (List.mem_cons_self b t)
      have ht8 : t.length ≤ 7 := by omega
      have hacc56 : acc < 2 ^ 56 := by
        calc acc < 2 ^ (8 * (8 - (t.length + 1))) := hacc
        _ ≤ 2 ^ 56 := Nat.pow_le_pow_right (by norm_num) (by omega)
      have hshift : (acc <<< 8) % 2 ^ 64 = acc * 256 := by
        rw [shiftl_eq_mul]
        have h256 : (2 : Nat) ^ 56 * 256 = 2 ^ 64 := by norm_num
        have h8 : (2 : Nat) ^ 8 = 256 := by norm_num
        rw [h8, Nat.mod_eq_of_lt (by omega)]
      have hor : acc * 256 ||| b = acc * 256 + b := by
        have h2 : (2 : Nat) ^ 8 * acc + b = 2 ^ 8 * acc ||| b :=
          Nat.mul_add_lt_is_or (by omega) acc
        rw [show acc * 256 = 2 ^ 8 * acc by ring]
        rw [← h2]
      rw [hshift, hor]
      apply ih (fun y hy => hb y (List.mem_cons_of_mem b hy)) (by omega)
      have e1 : 8 * (8 - (t.length + 1)) + 8 = 8 * (8 - t.length) := by omega
      calc acc * 256 + b < (acc + 1) * 256 := by omega
      _ ≤ 2 ^ (8 * (8 - (t.length + 1))) * 256 := by
            have : acc + 1 ≤ 2 ^ (8 * (8 - (t.length + 1))) := hacc
            exact Nat.mul_le_mul_right 256 this
      _ = 2 ^ (8 * (8 - t.length)) := by
            rw [← e1, Nat.pow_add]

lemma toBeBytes_foldl (x k : Nat) (hk : k ≤ 8) :
    ((toBeBytes x).drop k).foldl (fun a b => a * 256 + b) 0 = x % 2 ^ (8 * (8 - k)) := by
  interval_cases k <;> simp [toBeBytes, and255, shiftr_eq_div] <;> omega

lemma xor_xor_cancel (p v : Nat) : (p ^^^ v) ^^^ p = v := by
  rw [Nat.xor_comm p v, Nat.xor_assoc, Nat.xor_self, Nat.xor_zero]

lemma decodeNibbleLZB_code {l sel : Nat} (hl : l ≤ 8) (hsel : sel = 0 ∨ sel = 8) :
    decodeNibbleLZB ((if l ≥ 4 then l - 1 else l) ||| sel) = if l = 4 then 3 else l := by
  rcases hsel with rfl | rfl <;> interval_cases l <;> decide

lemma sel_bit_hi {l : Nat} (hl : l ≤ 8) :
    (((if l ≥ 4 then l - 1 else l) ||| 8) &&& 8 != 0) = true := by
  interval_cases l <;> decide

lemma sel_bit_lo {l : Nat} (hl : l ≤ 8) :
    (((if l ≥ 4 then l - 1 else l) ||| 0) &&& 8 != 0) = false := by
  interval_cases l <;> decide

lemma readBE_drops {R extra : List Nat} {ridx e k : Nat} (hk : k ≤ 8)
    (hdrop : R.drop ridx = (toBeBytes e).drop k ++ extra)
    (hkb : e < 2 ^ (8 * (8 - k))) :
    readBE R (8 - k) ridx 0 = some (e, ridx + (8 - k)) := by
  rw [readBE_eq ((toBeBytes e).drop k) hdrop (by simp [toBeBytes])]
  have hlen : ((toBeBytes e).drop k).length = 8 - k := by simp [toBeBytes]
  rw [shiftFold_eq_arith _ (fun b hb => toBeBytes_bytes_lt b (List.mem_of_mem_drop hb))
      (by omega) 0 (Nat.pow_pos (by norm_num))]
  rw [toBeBytes_foldl e k hk, Nat.mod_eq_of_lt hkb]

lemma decodeOne_encodeValue {tableSize : Nat} {s : PredState} {v : Nat}
    (hs : stateBound s) (hv : v < 2 ^ 64) {R extra : List Nat} {ridx : Nat}
    (hdrop : R.drop ridx = (encodeValue s v).2 ++ extra) :
    decodeOne tableSize R s (encodeValue s v).1 ridx =
      some (v, stepState tableSize s v, ridx + (encodeValue s v).2.length) := by
  have hf := fcmDiff_lt hs hv
  have hdlt := dfcmDiff_lt (s := s) (v := v) hv
  have he64 : min (fcmDiff s v) (dfcmDiff s v) < 2 ^ 64 :=
    lt_of_le_of_lt (Nat.min_le_left _ _) hf
  have hl8 := countLZB_le (min (fcmDiff s v) (dfcmDiff s v))
  have heb := countLZB_bound he64
  set e := min (fcmDiff s v) (dfcmDiff s v) with he
  set l := countLZB e with hldef
  set k := if l = 4 then 3 else l with hkdef
  have hk8 : k ≤ 8 := by rw [hkdef]; split_ifs <;> omega
  have hkb : e < 2 ^ (8 * (8 - k)) := by
    rw [hkdef]
    split_ifs with h4
    · rw [h4] at heb
      exact lt_of_lt_of_le heb (Nat.pow_le_pow_right (by norm_num) (by norm_num))
    · exact heb
  have hEV : encodeValue s v =
      ((if l ≥ 4 then l - 1 else l) |||
        (if fcmDiff s v < dfcmDiff s v then 8 else 0),
       (toBeBytes e).drop k) := by
    simp only [encodeValue, ← he, ← hldef]
    rw [hkdef]
    by_cases l4 : l = 4 <;> simp [l4]
  rw [hEV] at hdrop ⊢
  have hlen : ((toBeBytes e).drop k).length = 8 - k := by simp [toBeBytes]
  by_cases hsel : fcmDiff s v < dfcmDiff s v
  · have hemin : e = fcmDiff s v := by rw [he]; exact Nat.min_eq_left hsel.le
    simp only [if_pos hsel]
    simp only [decodeOne, decodeNibbleLZB_code hl8 (Or.inr rfl), ← hkdef]
    rw [readBE_drops hk8 hdrop hkb, sel_bit_hi hl8]
    have hxv : e ^^^ decoderChosen s true = v := by
      show e ^^^ fcmPrediction s = v
      rw [hemin]
      exact xor_xor_cancel _ _
    simp [hxv, hlen]
  · have hemin : e = dfcmDiff s v := by
      rw [he]
      exact Nat.min_eq_right (le_of_not_lt hsel)
    simp only [if_neg hsel]
    simp only [decodeOne, decodeNibbleLZB_code hl8 (Or.inl rfl), ← hkdef]
    rw [readBE_drops hk8 hdrop hkb, sel_bit_lo hl8]
    have hxv : e ^^^ decoderChosen s false = v := by
      show e ^^^ wadd (dfcmTableEntry s) s.lastValue = v
      rw [hemin]
      exact xor_xor_cancel _ _
    simp [hxv, hlen]

lemma twoStepInduction {motive : List Nat → Prop} (h0 : motive [])
    (h1 : ∀ v, motive [v])
    (h2 : ∀ v1 v2 rest, motive rest → motive (v1 :: v2 :: rest)) :
    ∀ l, motive l := by
  have key : ∀ n l, List.length l ≤ n → motive l := by
    intro n
    induction n with
    | zero =>
        intro l hl
        rcases l with _ | ⟨v, t⟩
        · exact h0
        · simp at hl
    | succ n ih =>
        intro l hl
        rcases l with _ | ⟨v1, _ | ⟨v2, rest⟩⟩
        · exact h0
        · exact h1 v1
        · refine h2 v1 v2 rest (ih rest ?_)
          simp at hl
          omega
  exact fun l => key l.length l le_rfl

lemma encodeValue_mask_lt (s : PredState) (v : Nat) : (encodeValue s v).1 < 16 := by
  have hl8 := countLZB_le (min (fcmDiff s v) (dfcmDiff s v))
  simp only [encodeValue]
  show _ ||| _ < 16
  have h16 : (16 : Nat) = 2 ^ 4 := by norm_num
  rw [h16]
  apply Nat.or_lt_two_pow
  · split_ifs <;> omega
  · split_ifs <;> norm_num

lemma hi_nibble {m1 m2 : Nat} (h1 : m1 < 16) (h2 : m2 < 16) :
    (m1 <<< 4 ||| m2) >>> 4 = m1 := by
  rw [or_shiftl_eq_add m1 4 (by omega : m2 < 2 ^ 4), shiftr_eq_div]
  have h24 : (2 : Nat) ^ 4 = 16 := by norm_num
  rw [h24]
  omega

lemma lo_nibble {m1 m2 : Nat} (h1 : m1 < 16) (h2 : m2 < 16) :
    (m1 <<< 4 ||| m2) &&& 15 = m2 := by
  rw [or_shiftl_eq_add m1 4 (by omega : m2 < 2 ^ 4), and15]
  have h24 : (2 : Nat) ^ 4 = 16 := by norm_num
  rw [h24]
  omega

lemma orNibble_even (done z : List Nat) (m : Nat) (hm : m < 16) :
    orNibble (done ++ 0 :: z) (2 * done.length) m = done ++ (m <<< 4) :: z := by
  simp only [orNibble]
  have heven : (2 * done.length) &&& 1 = 0 := by rw [and1]; omega
  rw [if_pos heven]
  have hshiftr : (2 * done.length) >>> 1 = done.length := by
    rw [shiftr_eq_div]
    have h21 : (2 : Nat) ^ 1 = 2 := by norm_num
    rw [h21]
    omega
  rw [hshiftr]
  have hgd : (done ++ 0 :: z).getD done.length 0 = 0 := by
    rw [List.getD_eq_get?, List.get?_append_right le_rfl, Nat.sub_self]
    rfl
  have hmod : m <<< 4 % 256 = m <<< 4 := by
    rw [shiftl_eq_mul]
    have h24 : (2 : Nat) ^ 4 = 16 := by norm_num
    rw [h24]
    omega
  rw [hgd, hmod, Nat.zero_or, List.set_append_right _ _ le_rfl, Nat.sub_self]
  rfl

lemma orNibble_odd (done z : List Nat) (b m : Nat) (hm : m < 16) :
    orNibble (done ++ b :: z) (2 * done.length + 1) m = done ++ (b ||| m) :: z := by
  simp only [orNibble]
  have hodd : ¬ ((2 * done.length + 1) &&& 1 = 0) := by rw [and1]; omega
  rw [if_neg hodd]
  have hshiftr : (2 * done.length + 1) >>> 1 = done.length := by
    rw [shiftr_eq_div]
    have h21 : (2 : Nat) ^ 1 = 2 := by norm_num
    rw [h21]
    omega
  rw [hshiftr]
  have hgd : (done ++ b :: z).getD done.length 0 = b := by
    rw [List.getD_eq_get?, List.get?_append_right le_rfl, Nat.sub_self]
    rfl
  have hmod : m <<< 0 % 256 = m := by
    rw [Nat.shiftLeft_zero]
    omega
  rw [hgd, hmod, List.set_append_right _ _ le_rfl, Nat.sub_self]
  rfl

lemma compressLoop_eq (tableSize : Nat) :
    ∀ (vs : List Nat), ∀ (s : PredState) (done res : List Nat),
      compressLoop tableSize s vs (2 * done.length)
        (done ++ List.replicate ((vs.length + 1) / 2) 0) res =
      (done ++ (encodePairs tableSize s vs).1, res ++ (encodePairs tableSize s vs).2) := by
  refine twoStepInduction ?_ ?_ ?_
  · intro s done res
    simp [compressLoop, encodePairs]
  · intro v s done res
    have hm := encodeValue_mask_lt s v
    simp only [compressLoop, encodePairs, List.length_singleton]
    norm_num
    exact orNibble_even done [] _ hm
  · intro v1 v2 rest ih s done res
    have hm1 := encodeValue_mask_lt s v1
    have hm2 := encodeValue_mask_lt (stepState tableSize s v1) v2
    have hrep : List.replicate (((v1 :: v2 :: rest).length + 1) / 2) (0 : Nat)
        = 0 :: List.replicate ((rest.length + 1) / 2) 0 := by
      simp only [List.length_cons]
      have he2 : (rest.length + 1 + 1 + 1) / 2 = (rest.length + 1) / 2 + 1 := by omega
      rw [he2, List.replicate_succ]
    rw [hrep]
    simp only [compressLoop, encodePairs]
    rw [orNibble_even done _ _ hm1]
    rw [orNibble_odd done _ _ _ hm2]
    have hix : 2 * done.length + 1 + 1 =
        2 * (done ++
          [(encodeValue s v1).1 <<< 4 ||| (encodeValue (stepState tableSize s v1) v2).1]).length := by
      simp
      omega
    rw [hix]
    have happ : done ++
        ((encodeValue s v1).1 <<< 4 ||| (encodeValue (stepState tableSize s v1) v2).1) ::
          List.replicate ((rest.length + 1) / 2) 0 =
        (done ++
          [(encodeValue s v1).1 <<< 4 ||| (encodeValue (stepState tableSize s v1) v2).1]) ++
          List.replicate ((rest.length + 1) / 2) 0 := by
      simp
    rw [happ, ih]
    simp

lemma shiftl4_shiftr4 {m : Nat} : (m <<< 4) >>> 4 = m := by
  rw [shiftl_eq_mul, shiftr_eq_div]
  have h24 : (2 : Nat) ^ 4 = 16 := by norm_num
  rw [h24]
  omega

lemma encodePairs_header_ne_nil (tableSize : Nat) (s : PredState) :
    ∀ l : List Nat, l ≠ [] → (encodePairs tableSize s l).1 ≠ [] := by
  intro l hl
  rcases l with _ | ⟨v1, _ | ⟨v2, rest⟩⟩
  · exact absurd rfl hl
  · simp [encodePairs]
  · simp [encodePairs]

lemma decompressLoop_eq (tableSize : Nat) (blk : FPCCompressedBlock) :
    ∀ (vs : List Nat), ∀ (s : PredState) (ridx : Nat) (out extra : List Nat),
      stateBound s → (∀ v ∈ vs, v < 2 ^ 64) →
      vs.length % 2 = blk.num_bytes_encoded % 2 →
      blk.residual.drop ridx = (encodePairs tableSize s vs).2 ++ extra →
      decompressLoop tableSize blk (encodePairs tableSize s vs).1 s ridx out =
        (out ++ vs, none) := by
  refine twoStepInduction ?_ ?_ ?_
  · intro s ridx out extra _ _ _ _
    simp [encodePairs, decompressLoop]
  · intro v s ridx out extra hs hall hpar hdrop
    have hv : v < 2 ^ 64 := hall v (List.mem_singleton_self v)
    simp only [encodePairs] at hdrop ⊢
    simp only [decompressLoop]
    rw [shiftl4_shiftr4]
    rw [decodeOne_encodeValue hs hv hdrop]
    have hnum : blk.num_bytes_encoded % 2 = 1 := by
      simp at hpar
      omega
    have hbit : (blk.num_bytes_encoded &&& 1 != 0) = true := by
      rw [and1, hnum]
      rfl
    rw [hbit]
    simp
  · intro v1 v2 rest ih s ridx out extra hs hall hpar hdrop
    have hv1 : v1 < 2 ^ 64 := hall v1 (by simp)
    have hv2 : v2 < 2 ^ 64 := hall v2 (by simp)
    have hm1 := encodeValue_mask_lt s v1
    have hm2 := encodeValue_mask_lt (stepState tableSize s v1) v2
    have hs1 : stateBound (stepState tableSize s v1) := stateBound_step hs hv1
    have hs2 : stateBound (stepState tableSize (stepState tableSize s v1) v2) :=
      stateBound_step hs1 hv2
    simp only [encodePairs] at hdrop ⊢
    simp only [decompressLoop]
    rw [hi_nibble hm1 hm2, lo_nibble hm1 hm2]
    have hdrop1 : blk.residual.drop ridx =
        (encodeValue s v1).2 ++
          ((encodeValue (stepState tableSize s v1) v2).2 ++
            ((encodePairs tableSize (stepState tableSize (stepState tableSize s v1) v2) rest).2 ++
              extra)) := by
      simpa [List.append_assoc] using hdrop
    rw [decodeOne_encodeValue hs hv1 hdrop1]
    dsimp only
    have hdrop2 : blk.residual.drop (ridx + (encodeValue s v1).2.length) =
        (encodeValue (stepState tableSize s v1) v2).2 ++
          ((encodePairs tableSize (stepState tableSize (stepState tableSize s v1) v2) rest).2 ++
            extra) := by
      rw [← List.drop_drop, hdrop1, List.drop_left]
    have hcond : ((encodePairs tableSize
          (stepState tableSize (stepState tableSize s v1) v2) rest).1.isEmpty &&
        (blk.num_bytes_encoded &&& 1 != 0)) = false := by
      by_cases hrest : rest = []
      · have hnum : blk.num_bytes_encoded % 2 = 0 := by
          rw [hrest] at hpar
          simp at hpar
          omega
        have hbit : (blk.num_bytes_encoded &&& 1 != 0) = false := by
          rw [and1, hnum]
          rfl
        rw [hbit, Bool.and_false]
      · have hne := encodePairs_header_ne_nil tableSize
          (stepState tableSize (stepState tableSize s v1) v2) rest hrest
        rcases hEP : (encodePairs tableSize
            (stepState tableSize (stepState tableSize s v1) v2) rest).1 with _ | ⟨x, xs⟩
        · exact absurd hEP hne
        · simp
    rw [hcond]
    simp only [Bool.false_eq_true, if_false]
    rw [decodeOne_encodeValue hs1 hv2 hdrop2]
    dsimp only
    have hdrop3 : blk.residual.drop
            (ridx + (encodeValue s v1).2.length + (encodeValue (stepState tableSize s v1) v2).2.length) =
        (encodePairs tableSize (stepState tableSize (stepState tableSize s v1) v2) rest).2 ++ extra := by
      rw [← List.drop_drop, hdrop2, List.drop_left]
    have hpar3 : rest.length % 2 = blk.num_bytes_encoded % 2 := by
      simp at hpar
      omega
    rw [ih (stepState tableSize (stepState tableSize s v1) v2)
        (ridx + (encodeValue s v1).2.length + (encodeValue (stepState tableSize s v1) v2).2.length)
        (out ++ [v1] ++ [v2]) extra hs2 (fun v hv => hall v (by simp [hv])) hpar3 hdrop3]
    simp

lemma pow2_and_self_sub_one (k : Nat) : 2 ^ k &&& (2 ^ k - 1) = 0 := by
  rw [Nat.and_pow_two_sub_one_eq_mod]
  exact Nat.mod_self _

lemma compress_eq {tableSize : Nat} {vs : List Nat} (hne : vs ≠ [])
    (h0 : tableSize ≠ 0) (hpow : tableSize &&& (tableSize - 1) = 0) :
    compress tableSize vs = Except.ok
      { num_bytes_encoded := vs.length,
        encoding := (encodePairs tableSize (initState tableSize) vs).1,
        residual := (encodePairs tableSize (initState tableSize) vs).2 } := by
  unfold compress compress_into
  rw [if_neg (by simp [hne])]
  rw [if_neg (by simp [h0, hpow])]
  have h := compressLoop_eq tableSize vs (initState tableSize) [] []
  simp only [List.length_nil, Nat.mul_zero, List.nil_append] at h
  rw [h]

lemma compress_nil (tableSize : Nat) :
    compress tableSize [] = Except.ok
      { num_bytes_encoded := 0, encoding := [], residual := [] } := rfl

lemma decompress_compress_blk {tableSize : Nat} {vs : List Nat}
    (hall : ∀ v ∈ vs, v < 2 ^ 64) :
    decompress tableSize
      { num_bytes_encoded := vs.length,
        encoding := (encodePairs tableSize (initState tableSize) vs).1,
        residual := (encodePairs tableSize (initState tableSize) vs).2 } = (vs, none) := by
  rcases hvs : vs with _ | ⟨v, rest⟩
  · rfl
  · rw [← hvs]
    have hne : vs ≠ [] := by rw [hvs]; simp
    unfold decompress decompress_into
    rw [if_neg (by simp [hne])]
    exact decompressLoop_eq tableSize _ vs (initState tableSize) 0 [] []
      (stateBound_init tableSize) hall rfl (by simp)

lemma roundtrip_core {tableSize : Nat} {vs : List Nat}
    (h0 : tableSize ≠ 0) (hpow : tableSize &&& (tableSize - 1) = 0)
    (hall : ∀ v ∈ vs, v < 2 ^ 64) :
    Except.map (decompress tableSize) (compress tableSize vs) = Except.ok (vs, none) := by
  rcases hvs : vs with _ | ⟨v, rest⟩
  · rfl
  · rw [← hvs]
    have hne : vs ≠ [] := by rw [hvs]; simp
    rw [compress_eq hne h0 hpow]
    simp only [Except.map]
    rw [decompress_compress_blk hall]

lemma encodePairs_header_length (tableSize : Nat) :
    ∀ vs : List Nat, ∀ s : PredState,
      (encodePairs tableSize s vs).1.length = (vs.length + 1) / 2 := by
  refine twoStepInduction ?_ ?_ ?_
  · intro s
    simp [encodePairs]
  · intro v s
    simp [encodePairs]
  · intro v1 v2 rest ih s
    simp only [encodePairs, List.length_cons, ih]
    omega

lemma encodeValue_residual_length (s : PredState) (v : Nat) :
    (encodeValue s v).2.length = 8 - decodeNibbleLZB (encodeValue s v).1 := by
  have hl8 := countLZB_le (min (fcmDiff s v) (dfcmDiff s v))
  simp only [encodeValue]
  by_cases hsel : fcmDiff s v < dfcmDiff s v
  · simp only [if_pos hsel]
    rw [decodeNibbleLZB_code hl8 (Or.inr rfl)]
    by_cases l4 : countLZB (min (fcmDiff s v) (dfcmDiff s v)) = 4 <;>
      simp [l4, toBeBytes]
  · simp only [if_neg hsel]
    rw [decodeNibbleLZB_code hl8 (Or.inl rfl)]
    by_cases l4 : countLZB (min (fcmDiff s v) (dfcmDiff s v)) = 4 <;>
      simp [l4, toBeBytes]

lemma encodePairs_residual_length (tableSize : Nat) :
    ∀ vs : List Nat, ∀ s : PredState,
      (encodePairs tableSize s vs).2.length =
        ((masksOf tableSize s vs).map (fun m => 8 - decodeNibbleLZB m)).sum := by
  refine twoStepInduction ?_ ?_ ?_
  · intro s
    simp [encodePairs, masksOf]
  · intro v s
    simp [encodePairs, masksOf, encodeValue_residual_length]
  · intro v1 v2 rest ih s
    simp [encodePairs, masksOf, encodeValue_residual_length, ih]

lemma nibble_extract_shift (hs : List Nat) (byte i : Nat) :
    ((byte :: hs).getD ((i + 2) >>> 1) 0 >>> (if (i + 2) &&& 1 = 0 then 4 else 0)) &&& 15 =
    (hs.getD (i >>> 1) 0 >>> (if i &&& 1 = 0 then 4 else 0)) &&& 15 := by
  have hidx : (i + 2) >>> 1 = (i >>> 1) + 1 := by
    rw [shiftr_eq_div, shiftr_eq_div]
    have h21 : (2 : Nat) ^ 1 = 2 := by norm_num
    rw [h21]
    omega
  have hcond : ((i + 2) &&& 1 = 0) ↔ (i &&& 1 = 0) := by
    rw [and1, and1]
    omega
  rw [hidx, List.getD_cons_succ, if_congr hcond rfl rfl]

lemma headerNibbles_masks (tableSize : Nat) :
    ∀ vs : List Nat, ∀ s : PredState,
      ((List.range vs.length).map fun i =>
        ((encodePairs tableSize s vs).1.getD (i >>> 1) 0 >>>
          (if i &&& 1 = 0 then 4 else 0)) &&& 15) = masksOf tableSize s vs := by
  refine twoStepInduction ?_ ?_ ?_
  · intro s
    simp [masksOf]
  · intro v s
    have hm := encodeValue_mask_lt s v
    simp only [encodePairs, masksOf, List.length_singleton]
    rw [show List.range 1 = [0] from rfl]
    simp only [List.map_cons, List.map_nil]
    rw [show (0 : Nat) >>> 1 = 0 from rfl, List.getD_cons_zero]
    rw [if_pos (show (0 : Nat) &&& 1 = 0 from rfl)]
    rw [shiftl4_shiftr4, and15, Nat.mod_eq_of_lt hm]
  · intro v1 v2 rest ih s
    have hm1 := encodeValue_mask_lt s v1
    have hm2 := encodeValue_mask_lt (stepState tableSize s v1) v2
    simp only [encodePairs, masksOf, List.length_cons]
    have hrange : List.range (rest.length + 1 + 1) =
        0 :: 1 :: (List.range rest.length).map (fun i => i + 2) := by
      rw [List.range_succ_eq_map, List.range_succ_eq_map, List.map_cons, List.map_map]
      refine congrArg (List.cons 0) (congrArg (List.cons 1) ?_)
      refine List.map_congr_left fun a _ => ?_
      simp [Nat.succ_eq_add_one]
    rw [hrange]
    simp only [List.map_cons, List.map_map]
    have h0 : (((encodeValue s v1).1 <<< 4 ||| (encodeValue (stepState tableSize s v1) v2).1) ::
          (encodePairs tableSize (stepState tableSize (stepState tableSize s v1) v2) rest).1).getD
            ((0 : Nat) >>> 1) 0 >>> (if (0 : Nat) &&& 1 = 0 then 4 else 0) &&& 15 =
        (encodeValue s v1).1 := by
      rw [show (0 : Nat) >>> 1 = 0 from rfl, List.getD_cons_zero]
      rw [if_pos (show (0 : Nat) &&& 1 = 0 from rfl)]
      rw [hi_nibble hm1 hm2, and15, Nat.mod_eq_of_lt hm1]
    have h1 : (((encodeValue s v1).1 <<< 4 ||| (encodeValue (stepState tableSize s v1) v2).1) ::
          (encodePairs tableSize (stepState tableSize (stepState tableSize s v1) v2) rest).1).getD
            ((1 : Nat) >>> 1) 0 >>> (if (1 : Nat) &&& 1 = 0 then 4 else 0) &&& 15 =
        (encodeValue (stepState tableSize s v1) v2).1 := by
      rw [show (1 : Nat) >>> 1 = 0 from rfl, List.getD_cons_zero]
      rw [if_neg (show ¬ ((1 : Nat) &&& 1 = 0) from by decide)]
      rw [Nat.shiftRight_zero, lo_nibble hm1 hm2]
    rw [h0, h1]
    refine congrArg _ (congrArg _ ?_)
    rw [← ih (stepState tableSize (stepState tableSize s v1) v2)]
    refine List.map_congr_left fun a _ => ?_
    exact nibble_extract_shift _ _ a

lemma shiftl4_and15 (m : Nat) : (m <<< 4) &&& 15 = 0 := by
  rw [shiftl_eq_mul, and15]
  have h24 : (2 : Nat) ^ 4 = 16 := by norm_num
  rw [h24]
  omega

lemma encodePairs_last_odd (tableSize : Nat) :
    ∀ vs : List Nat, ∀ s : PredState, vs.length % 2 = 1 → ∀ d,
      ((encodePairs tableSize s vs).1.getLastD d) &&& 15 = 0 := by
  refine twoStepInduction ?_ ?_ ?_
  · intro s h d
    simp at h
  · intro v s _ d
    simp only [encodePairs, List.getLastD_cons, List.getLastD_nil]
    exact shiftl4_and15 _
  · intro v1 v2 rest ih s h d
    have hr : rest.length % 2 = 1 := by
      simp at h
      omega
    simp only [encodePairs, List.getLastD_cons]
    exact ih (stepState tableSize (stepState tableSize s v1) v2) hr _

lemma decodeOne_none_iff (tableSize : Nat) (R : List Nat) (s : PredState) (enc ridx : Nat) :
    decodeOne tableSize R s enc ridx = none ↔
      0 < 8 - decodeNibbleLZB enc ∧ R.length < ridx + (8 - decodeNibbleLZB enc) := by
  unfold decodeOne
  rcases h : readBE R (8 - decodeNibbleLZB enc) ridx 0 with _ | ⟨r, ridx2⟩
  · simp only [h]
    constructor
    · intro _
      exact (readBE_none (8 - decodeNibbleLZB enc) ridx 0).mp h
    · intro _
      trivial
  · simp only [h]
    constructor
    · intro hcontra
      simp at hcontra
    · intro hrhs
      have h2 := (readBE_none (R := R) (8 - decodeNibbleLZB enc) ridx 0).mpr hrhs
      rw [h] at h2
      simp at h2

lemma scanl_hash_bounds {tableSize : Nat} (hT : 1 ≤ tableSize) :
    ∀ (vs : List Nat) (s0 : PredState),
      s0.fcmHash < tableSize → s0.dfcmHash < tableSize →
      s0.fcm.length = tableSize → s0.dfcm.length = tableSize →
      ∀ s ∈ vs.scanl (fun t v => stepState tableSize t v) s0,
        s.fcmHash < s.fcm.length ∧ s.dfcmHash < s.dfcm.length := by
  intro vs
  induction vs with
  | nil =>
      intro s0 h1 h2 h3 h4 s hmem
      rw [List.scanl_nil] at hmem
      simp at hmem
      subst hmem
      exact ⟨h3 ▸ h1, h4 ▸ h2⟩
  | cons v rest ih =>
      intro s0 h1 h2 h3 h4 s hmem
      rw [List.scanl_cons] at hmem
      simp only [List.singleton_append, List.mem_cons] at hmem
      rcases hmem with rfl | hmem
      · exact ⟨h3 ▸ h1, h4 ▸ h2⟩
      · refine ih (stepState tableSize s0 v) ?_ ?_ ?_ ?_ s hmem
        · exact Nat.lt_of_le_of_lt Nat.and_le_right (by omega)
        · exact Nat.lt_of_le_of_lt Nat.and_le_right (by omega)
        · simp [stepState, h3]
        · simp [stepState, h4]

lemma decompressLoop_no_config (tableSize : Nat) (blk : FPCCompressedBlock) :
    ∀ (hdr : List Nat) (s : PredState) (ridx : Nat) (out : List Nat),
      (decompressLoop tableSize blk hdr s ridx out).2 ≠ some FPCError.configError := by
  intro hdr
  induction hdr with
  | nil =>
      intro s ridx out
      simp [decompressLoop]
  | cons b rest ih =>
      intro s ridx out
      simp only [decompressLoop]
      rcases h1 : decodeOne tableSize blk.residual s (b >>> 4) ridx with _ | ⟨v1, s1, r1⟩
      · simp
      · dsimp only
        by_cases hc : (rest.isEmpty && (blk.num_bytes_encoded &&& 1 != 0)) = true
        · rw [if_pos hc]
          simp
        · rw [if_neg hc]
          rcases h2 : decodeOne tableSize blk.residual s1 (b &&& 0xf) r1 with _ | ⟨v2, s2, r2⟩
          · simp
          · exact ih s2 r2 (out ++ [v1] ++ [v2])

lemma decompress_into_no_config (tableSize : Nat) (blk : FPCCompressedBlock)
    (res : List Nat) :
    (decompress_into tableSize blk res).2 ≠ some FPCError.configError := by
  unfold decompress_into
  by_cases h : blk.num_bytes_encoded = 0
  · rw [if_pos h]
    simp
  · rw [if_neg h]
    exact decompressLoop_no_config tableSize blk blk.encoding (initState tableSize) 0 res

/-- Claim C1: for every finite sequence of doubles (represented by their raw
64-bit IEEE-754 bit patterns, so NaN payloads and sign bits are compared
exactly) and every valid table size (a power of two, at least 1),
decompressing the block produced by compress restores the original sequence
bit-for-bit and signals no error. -/
theorem claim1_roundtrip (tableSize k : Nat) (vs : List Nat)
    (hpow : tableSize = 2 ^ k) (hall : ∀ v ∈ vs, v < 2 ^ 64) :
    Except.map (decompress tableSize) (compress tableSize vs) =
      Except.ok (vs, none) := by
  subst hpow
  exact roundtrip_core (Nat.pow_pos (by norm_num)).ne' (pow2_and_self_sub_one k) hall

/-- Witness for C1: table size 2 = 2 ^ 1 and the two-element sequence of bit
patterns [1, 2] round-trips. -/
theorem claim1_roundtrip_witness :
    Except.map (decompress 2) (compress 2 [1, 2]) = Except.ok ([1, 2], none) :=
  claim1_roundtrip 2 1 [1, 2] (by norm_num) (by decide)

/-- Claim C2 counterexample: the claim asserts that for every invalid table
size and every input both compress and decompress fail with the
configuration error.  At table size 3 (not a power of two), compress on the
empty sequence returns an empty block without any error (the emptiness early
return at lib.rs:39-41 precedes the table-size check), and decompress on a
well-formed one-value block succeeds outright (decompress_into has no
table-size check at all). -/
theorem claim2_counterexample :
    compress 3 ([] : List Nat) =
        Except.ok { num_bytes_encoded := 0, encoding := [], residual := [] } ∧
    decompress 3 { num_bytes_encoded := 1, encoding := [112], residual := [] } =
        ([0], none) := by
  constructor
  · rfl
  · decide

/-- Claim C2 as amended: for every nonempty input and every table size that
is zero or not a power of two, compress_into (and hence compress) fails with
the configuration-error kind before touching the buffers; compress on the
empty sequence returns the empty block without error for every table size;
and decompress_into performs no table-size validation at all, so it never
fails with the configuration-error kind. -/
theorem claim2_amended :
    (∀ (tableSize : Nat) (vs encoding residual : List Nat), vs ≠ [] →
      (tableSize = 0 ∨ tableSize &&& (tableSize - 1) ≠ 0) →
      compress_into tableSize vs encoding residual =
        Except.error FPCError.configError) ∧
    (∀ tableSize : Nat, compress tableSize [] =
      Except.ok { num_bytes_encoded := 0, encoding := [], residual := [] }) ∧
    (∀ (tableSize : Nat) (blk : FPCCompressedBlock) (res : List Nat),
      (decompress_into tableSize blk res).2 ≠ some FPCError.configError) := by
  refine ⟨?_, ?_, ?_⟩
  · intro tableSize vs encoding residual hne hbad
    unfold compress_into
    rw [if_neg (by simp [hne]), if_pos hbad]
  · intro tableSize
    rfl
  · intro tableSize blk res
    exact decompress_into_no_config tableSize blk res

/-- Witness for the amended C2: table size 3 with the one-element input [1]
yields the configuration error. -/
theorem claim2_amended_witness :
    compress_into 3 [1] [0] [] = Except.error FPCError.configError :=
  claim2_amended.1 3 [1] [0] [] (by decide) (by decide)

/-- Claim C3: during decompression a single header nibble fails exactly when
the value still needs at least one residual byte and the cursor would run
past the residual length (first conjunct, the malformed-block condition of
lib.rs:128-134 and 157-163); values decoded before the error remain in the
output buffer (second conjunct, a concrete two-value block whose first value
decodes and stays in the buffer while the second raises the error); and for
blocks produced by compress on any input with a matching valid table size
the malformed-block error never occurs (third conjunct). -/
theorem claim3_malformed :
    (∀ (tableSize : Nat) (R : List Nat) (s : PredState) (enc ridx : Nat),
      decodeOne tableSize R s enc ridx = none ↔
        0 < 8 - decodeNibbleLZB enc ∧
          R.length < ridx + (8 - decodeNibbleLZB enc)) ∧
    (decompress_into 32
        { num_bytes_encoded := 2, encoding := [112], residual := [] } [] =
      ([0], some FPCError.malformedBlock)) ∧
    (∀ (tableSize k : Nat) (vs : List Nat), tableSize = 2 ^ k →
      (∀ v ∈ vs, v < 2 ^ 64) → ∀ blk, compress tableSize vs = Except.ok blk →
      (decompress tableSize blk).2 = none) := by
  refine ⟨decodeOne_none_iff, by decide, ?_⟩
  intro tableSize k vs hpow hall blk hc
  have hT0 : tableSize ≠ 0 := by rw [hpow]; exact (Nat.pow_pos (by norm_num)).ne'
  have hTp : tableSize &&& (tableSize - 1) = 0 := hpow ▸ pow2_and_self_sub_one k
  rcases hvs : vs with _ | ⟨v, rest⟩
  · rw [hvs, compress_nil] at hc
    cases hc
    rfl
  · have hne : vs ≠ [] := by rw [hvs]; simp
    rw [compress_eq hne hT0 hTp] at hc
    cases hc
    rw [decompress_compress_blk hall]

/-- Witness for C3: the third conjunct applied at table size 32 = 2 ^ 5 to
the one-element input [0], whose compressed block is
(1, [112], []). -/
theorem claim3_malformed_witness :
    (decompress 32 { num_bytes_encoded := 1, encoding := [112], residual := [] }).2 =
      none :=
  claim3_malformed.2.2 32 5 [0] (by norm_num) (by decide)
    { num_bytes_encoded := 1, encoding := [112], residual := [] } rfl

/-- Claim C4: for every input sequence and valid table size (a power of
two), the block produced by compress records the input length in
num_bytes_encoded and has a header of exactly (len + 1) / 2 = ceil(len / 2)
bytes; in particular the empty input yields a zero count and an empty
header. -/
theorem claim4_block_shape (tableSize k : Nat) (vs : List Nat)
    (hpow : tableSize = 2 ^ k) (blk : FPCCompressedBlock)
    (hc : compress tableSize vs = Except.ok blk) :
    blk.num_bytes_encoded = vs.length ∧
    blk.encoding.length = (vs.length + 1) / 2 ∧
    (vs = [] → blk.num_bytes_encoded = 0 ∧ blk.encoding = []) := by
  have hT0 : tableSize ≠ 0 := by rw [hpow]; exact (Nat.pow_pos (by norm_num)).ne'
  have hTp : tableSize &&& (tableSize - 1) = 0 := hpow ▸ pow2_and_self_sub_one k
  by_cases hvs : vs = []
  · subst hvs
    rw [compress_nil] at hc
    cases hc
    exact ⟨rfl, rfl, fun _ => ⟨rfl, rfl⟩⟩
  · rw [compress_eq hvs hT0 hTp] at hc
    cases hc
    exact ⟨rfl, encodePairs_header_length tableSize vs (initState tableSize),
      fun hnil => absurd hnil hvs⟩

/-- Witness for C4: table size 2 = 2 ^ 1 and input [5] compress to the block
(1, [96], [5]) with one value and a one-byte header. -/
theorem claim4_block_shape_witness :
    (1 : Nat) = [(5 : Nat)].length ∧
    ([(96 : Nat)] : List Nat).length = ([(5 : Nat)].length + 1) / 2 ∧
    ([(5 : Nat)] = [] → (1 : Nat) = 0 ∧ ([(96 : Nat)] : List Nat) = []) :=
  claim4_block_shape 2 1 [5] (by norm_num)
    { num_bytes_encoded := 1, encoding := [96], residual := [5] } rfl

/-- Claim C5: for every input sequence and valid table size, the residual of
the compressed block has length exactly the sum over the header nibbles of
8 - decode_lzb(nibble), where decode_lzb takes the low three bits and adds
one when they are at least 4 (first conjunct); in particular a true
leading-zero-byte count of 4 (input bit pattern 0x00000000FFFFFFFF) emits
five residual bytes, an explicit zero byte plus the four meaningful bytes,
under lzb_code 3 (header byte 48 = 3 <<< 4), and a true count of 8 (input
0.0) emits no residual bytes under lzb_code 7 (header byte 112). -/
theorem claim5_residual_accounting (tableSize k : Nat) (vs : List Nat)
    (hpow : tableSize = 2 ^ k) (blk : FPCCompressedBlock)
    (hc : compress tableSize vs = Except.ok blk) :
    blk.residual.length =
      ((headerNibbles blk).map (fun n => 8 - decodeNibbleLZB n)).sum ∧
    compress 32 [4294967295] = Except.ok
      { num_bytes_encoded := 1, encoding := [48],
        residual := [0, 255, 255, 255, 255] } ∧
    compress 32 [0] = Except.ok
      { num_bytes_encoded := 1, encoding := [112], residual := [] } := by
  refine ⟨?_, rfl, rfl⟩
  have hT0 : tableSize ≠ 0 := by rw [hpow]; exact (Nat.pow_pos (by norm_num)).ne'
  have hTp : tableSize &&& (tableSize - 1) = 0 := hpow ▸ pow2_and_self_sub_one k
  by_cases hvs : vs = []
  · subst hvs
    rw [compress_nil] at hc
    cases hc
    rfl
  · rw [compress_eq hvs hT0 hTp] at hc
    cases hc
    unfold headerNibbles
    simp only
    rw [headerNibbles_masks tableSize vs (initState tableSize)]
    exact encodePairs_residual_length tableSize vs (initState tableSize)

/-- Witness for C5: table size 4 = 2 ^ 2 and input [0], whose block is
(1, [112], []) with empty residual and nibble sum zero. -/
theorem claim5_residual_accounting_witness :
    (([] : List Nat).length =
      ((headerNibbles { num_bytes_encoded := 1, encoding := [112], residual := [] }).map
        (fun n => 8 - decodeNibbleLZB n)).sum) ∧
    compress 32 [4294967295] = Except.ok
      { num_bytes_encoded := 1, encoding := [48],
        residual := [0, 255, 255, 255, 255] } ∧
    compress 32 [0] = Except.ok
      { num_bytes_encoded := 1, encoding := [112], residual := [] } :=
  claim5_residual_accounting 4 2 [0] (by norm_num)
    { num_bytes_encoded := 1, encoding := [112], residual := [] } rfl

lemma code_or_sel_and7 {l sel : Nat} (hl : l ≤ 8) (hsel : sel = 0 ∨ sel = 8) :
    ((if l ≥ 4 then l - 1 else l) ||| sel) &&& 7 = (if l ≥ 4 then l - 1 else l) := by
  rcases hsel with rfl | rfl <;> interval_cases l <;> decide

/-- Claim C6 counterexample: the claim asserts no header nibble ever has its
low three bits equal to 4.  Compressing the single bit pattern
0x0000000000FF0000 (a denormal double with exactly five leading zero bytes
in its XOR residual) produces the header byte 64, whose single nibble is 4,
with lzb_code 4 &&& 7 = 4. -/
theorem claim6_counterexample :
    compress 32 [16711680] = Except.ok
      { num_bytes_encoded := 1, encoding := [64], residual := [255, 0, 0] } ∧
    headerNibbles
      { num_bytes_encoded := 1, encoding := [64], residual := [255, 0, 0] } = [4] ∧
    (4 : Nat) &&& 7 = 4 := by
  refine ⟨rfl, by decide, by decide⟩

/-- Claim C6 as amended: a header nibble carries lzb_code 4 exactly when the
chosen XOR residual has exactly five leading zero bytes; a true count of
four leading zero bytes is never coded as 4 (it is collapsed to code 3, so
the forbidden-code property holds for count 4 but not in general). -/
theorem claim6_amended (s : PredState) (v : Nat) :
    ((encodeValue s v).1 &&& 7 = 4 ↔
      countLZB (min (fcmDiff s v) (dfcmDiff s v)) = 5) ∧
    (countLZB (min (fcmDiff s v) (dfcmDiff s v)) = 4 →
      (encodeValue s v).1 &&& 7 = 3) := by
  have hl8 := countLZB_le (min (fcmDiff s v) (dfcmDiff s v))
  simp only [encodeValue]
  by_cases hsel : fcmDiff s v < dfcmDiff s v
  · simp only [if_pos hsel]
    rw [code_or_sel_and7 hl8 (Or.inr rfl)]
    constructor
    · split_ifs <;> omega
    · intro h4
      rw [if_pos (by omega)]
      omega
  · simp only [if_neg hsel]
    rw [code_or_sel_and7 hl8 (Or.inl rfl)]
    constructor
    · split_ifs <;> omega
    · intro h4
      rw [if_pos (by omega)]
      omega

/-- Claim C7: for every odd-length input and valid table size, the low
nibble of the last header byte of the compressed block is zero, and the
decoder skips that nibble: decompression stops after the high nibble of the
final header byte, returning exactly the original values (in particular
exactly num_bytes_encoded of them) with no error. -/
theorem claim7_odd_tail (tableSize k : Nat) (vs : List Nat)
    (hpow : tableSize = 2 ^ k) (hodd : vs.length % 2 = 1)
    (hall : ∀ v ∈ vs, v < 2 ^ 64) (blk : FPCCompressedBlock)
    (hc : compress tableSize vs = Except.ok blk) :
    blk.encoding ≠ [] ∧ blk.encoding.getLastD 0 &&& 15 = 0 ∧
    decompress tableSize blk = (vs, none) ∧
    (decompress tableSize blk).1.length = blk.num_bytes_encoded := by
  have hT0 : tableSize ≠ 0 := by rw [hpow]; exact (Nat.pow_pos (by norm_num)).ne'
  have hTp : tableSize &&& (tableSize - 1) = 0 := hpow ▸ pow2_and_self_sub_one k
  have hne : vs ≠ [] := by
    intro h
    rw [h] at hodd
    simp at hodd
  rw [compress_eq hne hT0 hTp] at hc
  cases hc
  refine ⟨encodePairs_header_ne_nil tableSize (initState tableSize) vs hne,
    encodePairs_last_odd tableSize vs (initState tableSize) hodd 0,
    decompress_compress_blk hall, ?_⟩
  rw [decompress_compress_blk hall]

/-- Witness for C7: table size 8 = 2 ^ 3 and the odd-length input
[0, 0, 0], whose block is (3, [119, 112], []) with last header byte
112 = 0b01110000. -/
theorem claim7_odd_tail_witness :
    ([(119 : Nat), 112] : List Nat) ≠ [] ∧
    ([(119 : Nat), 112] : List Nat).getLastD 0 &&& 15 = 0 ∧
    decompress 8 { num_bytes_encoded := 3, encoding := [119, 112], residual := [] } =
      ([0, 0, 0], none) ∧
    (decompress 8 { num_bytes_encoded := 3, encoding := [119, 112], residual := [] }).1.length =
      (3 : Nat) :=
  claim7_odd_tail 8 3 [0, 0, 0] (by norm_num) (by decide) (by decide)
    { num_bytes_encoded := 3, encoding := [119, 112], residual := [] } rfl

lemma code_or8_and8 {l : Nat} (hl : l ≤ 8) :
    ((if l ≥ 4 then l - 1 else l) ||| 8) &&& 8 = 8 := by
  interval_cases l <;> decide

lemma code_or0_and8 {l : Nat} (hl : l ≤ 8) :
    ((if l ≥ 4 then l - 1 else l) ||| 0) &&& 8 = 0 := by
  interval_cases l <;> decide

lemma encodeValue_foldl (s : PredState) (v : Nat) (hs : stateBound s)
    (hv : v < 2 ^ 64) :
    (encodeValue s v).2.foldl (fun a b => a * 256 + b) 0 =
      min (fcmDiff s v) (dfcmDiff s v) := by
  have hf := fcmDiff_lt hs hv
  have he64 : min (fcmDiff s v) (dfcmDiff s v) < 2 ^ 64 :=
    lt_of_le_of_lt (Nat.min_le_left _ _) hf
  have hl8 := countLZB_le (min (fcmDiff s v) (dfcmDiff s v))
  have heb := countLZB_bound he64
  set e := min (fcmDiff s v) (dfcmDiff s v) with he
  set l := countLZB e with hld
  simp only [encodeValue, ← he, ← hld]
  by_cases l4 : l = 4
  · simp only [if_pos l4]
    rw [toBeBytes_foldl e 3 (by omega)]
    apply Nat.mod_eq_of_lt
    rw [l4] at heb
    exact lt_of_lt_of_le heb (Nat.pow_le_pow_right (by norm_num) (by norm_num))
  · simp only [if_neg l4]
    rw [toBeBytes_foldl e l (by omega)]
    exact Nat.mod_eq_of_lt heb

/-- Claim C8: at every encoding step the predictor-select bit (bit 3 of the
nibble) is set if and only if the FCM difference is strictly smaller than
the DFCM difference; ties resolve to DFCM (equal differences give a clear
bit); and the emitted residual bytes reassemble (big-endian) to the smaller
of the two differences, i.e. the encoder encodes min(fcm_diff, dfcm_diff). -/
theorem claim8_predictor_select (s : PredState) (v : Nat) (hs : stateBound s)
    (hv : v < 2 ^ 64) :
    ((encodeValue s v).1 &&& 8 = 8 ↔ fcmDiff s v < dfcmDiff s v) ∧
    (fcmDiff s v = dfcmDiff s v → (encodeValue s v).1 &&& 8 = 0) ∧
    ((encodeValue s v).2.foldl (fun a b => a * 256 + b) 0 =
      min (fcmDiff s v) (dfcmDiff s v)) := by
  have hl8 := countLZB_le (min (fcmDiff s v) (dfcmDiff s v))
  refine ⟨?_, ?_, encodeValue_foldl s v hs hv⟩
  · simp only [encodeValue]
    by_cases hsel : fcmDiff s v < dfcmDiff s v
    · simp only [if_pos hsel]
      exact iff_of_true (code_or8_and8 hl8) hsel
    · simp only [if_neg hsel]
      refine iff_of_false ?_ hsel
      rw [code_or0_and8 hl8]
      norm_num
  · intro heq
    have hsel : ¬ fcmDiff s v < dfcmDiff s v := by omega
    simp only [encodeValue, if_neg hsel]
    exact code_or0_and8 hl8

/-- Witness for C8 at the initial state of table size 32 and the bit
pattern 3 (both predictions zero, so the differences tie at 3 and DFCM is
selected with nibble 6 and residual byte [3]). -/
theorem claim8_predictor_select_witness :
    ((encodeValue (initState 32) 3).1 &&& 8 = 8 ↔
      fcmDiff (initState 32) 3 < dfcmDiff (initState 32) 3) ∧
    (fcmDiff (initState 32) 3 = dfcmDiff (initState 32) 3 →
      (encodeValue (initState 32) 3).1 &&& 8 = 0) ∧
    ((encodeValue (initState 32) 3).2.foldl (fun a b => a * 256 + b) 0 =
      min (fcmDiff (initState 32) 3) (dfcmDiff (initState 32) 3)) :=
  claim8_predictor_select (initState 32) 3 (stateBound_init 32) (by norm_num)

/-- Claim C9 counterexample: the claim reads dfcm_pred as the full DFCM
prediction of spec section 4.1 (table entry plus last value, wrapping) and
asserts dfcm_diff = (dfcm_pred + L) XOR v.  At the reachable state after
encoding the bit pattern 1 at table size 32 (where the last value register
is 1) and next value 0, the encoder computes dfcm_diff = 2 while the
claimed formula gives 3. -/
theorem claim9_counterexample :
    dfcmDiff (stepState 32 (initState 32) 1) 0 = 2 ∧
    dfcmDiffClaimed (stepState 32 (initState 32) 1) 0 = 3 ∧
    dfcmDiff (stepState 32 (initState 32) 1) 0 ≠
      dfcmDiffClaimed (stepState 32 (initState 32) 1) 0 := by
  refine ⟨by decide, by decide, by decide⟩

/-- Claim C9 as amended: in the formula dfcm_diff = (dfcm_pred + L) XOR v
the word dfcm_pred denotes the raw table read dfcm[dfcm_hash], so the
encoder's DFCM difference equals (dfcm[dfcm_hash] + L) XOR v, which is
exactly (full section-4.1 prediction) XOR v with no second addition of L;
the decoder's chosen prediction in the DFCM case is that same full
prediction. -/
theorem claim9_amended (s : PredState) (v : Nat) :
    dfcmDiff s v = wadd (dfcmTableEntry s) s.lastValue ^^^ v ∧
    dfcmDiff s v = dfcmPrediction s ^^^ v ∧
    decoderChosen s false = dfcmPrediction s :=
  ⟨rfl, rfl, rfl⟩

/-- Claim C10: for every table size of at least 1, including sizes that are
not powers of two, every predictor state reached by the shared encoder and
decoder update loop (the states are exactly the scanl of stepState over the
processed bit patterns, starting from the initial state) has both rolling
hashes strictly below the corresponding table length, so every table access
fcm[fcm_hash] and dfcm[dfcm_hash] in compress_into and decompress_into is
in bounds: the masking with tableSize - 1 before each use needs only
tableSize being at least 1, not the power-of-two requirement. -/
theorem claim10_access_bounds (tableSize : Nat) (hT : 1 ≤ tableSize)
    (vs : List Nat) (s : PredState)
    (hmem : s ∈ vs.scanl (fun t v => stepState tableSize t v) (initState tableSize)) :
    s.fcmHash < s.fcm.length ∧ s.dfcmHash < s.dfcm.length := by
  refine scanl_hash_bounds hT vs (initState tableSize) ?_ ?_ ?_ ?_ s hmem
  · show (0 : Nat) < tableSize
    omega
  · show (0 : Nat) < tableSize
    omega
  · simp [initState]
  · simp [initState]

/-- Witness for C10 at the non-power-of-two table size 3 after processing
the single bit pattern 0. -/
theorem claim10_access_bounds_witness :
    (stepState 3 (initState 3) 0).fcmHash < (stepState 3 (initState 3) 0).fcm.length ∧
    (stepState 3 (initState 3) 0).dfcmHash < (stepState 3 (initState 3) 0).dfcm.length :=
  claim10_access_bounds 3 (by norm_num) [0] (stepState 3 (initState 3) 0) (by decide)
